import Mathlib

/-!
# Verification of bigstream's distributed transform core

A shallow embedding, in Lean 4, of the block-decomposition core of the
`bigstream` distributed transform code
(`bigstream/distributed_transform.py` and `bigstream/piecewise_transform.py`):
block planning, overlap cropping, transform localization, moving-region
bounding boxes, coordinate partitioning and result assembly.

Conventions used throughout:
* numpy / Python integers are modelled as `ℕ` or `ℤ` (no fixed width is
  relevant at the scales involved);
* physical coordinates and spacings are modelled as `ℚ` (the code uses
  floats only for geometry bookkeeping, never for the numeric kernels that
  stay external);
* `np.round` is round-half-to-even, modelled by `roundHalfEven`;
* numpy basic slicing clips slice bounds to the array's shape; where the
  code relies on that implicit clip it is made explicit here (`min`, or
  truncated `ℕ` subtraction for the `max(0, ·)` clip);
* external collaborators (the dask distribution layer, the pixel resample
  kernel, the coordinate-mapping routine) are abstracted as opaque-free
  function parameters, per their interface contract: the coordinate mapper
  preserves point count and order, so it enters as a pointwise map.
-/

namespace Bigstream

/-! ## Block planning

From `distributed_transform.distributed_apply_transform` (lines 88-116):

    nblocks = np.ceil(np.array(fix.shape) / blocksize_array).astype(int)
    overlaps = np.round(blocksize_array * overlap_factor).astype(int)
    for (i, j, k) in np.ndindex(*nblocks):
        start = blocksize_array * (i, j, k) - overlaps
        stop = start + blocksize_array + 2 * overlaps
        start = np.maximum(0, start)
        stop = np.minimum(fix.shape, stop)

Everything is per axis.  `ℕ` subtraction is truncated, which models the
`np.maximum(0, start)` clip exactly.  -/

/-- `np.round`: round half to even (banker's rounding), on rationals. -/
def roundHalfEven (q : ℚ) : ℤ :=
  if q - ⌊q⌋ < 1 / 2 then ⌊q⌋
  else if 1 / 2 < q - ⌊q⌋ then ⌊q⌋ + 1
  else if Even ⌊q⌋ then ⌊q⌋ else ⌊q⌋ + 1

/-- `np.round(blocksize * overlap_factor)` for one axis. -/
def overlapAxis (blocksize : ℕ) (factor : ℚ) : ℤ :=
  roundHalfEven (blocksize * factor)

/-- `np.ceil(shape / blocksize)` for one axis (exact ceiling division). -/
def nblocksAxis (shape blocksize : ℕ) : ℕ :=
  (shape + blocksize - 1) / blocksize

/-- Extended-slice start for one axis: `max(0, blocksize*i - overlap)`
(the clip is the truncated `ℕ` subtraction). -/
def extendedStartAx (blocksize overlap i : ℕ) : ℕ :=
  blocksize * i - overlap

/-- Extended-slice stop for one axis.  The code computes
`stop = start + blocksize + 2*overlap` from the *unclipped* start
`blocksize*i - overlap` (a possibly negative Python int), so in exact
arithmetic `stop = blocksize*i + blocksize + overlap`, then clips to the
shape.  (The spec's scenario `[0:192]` for block 0 with blocksize 128 and
overlap 64 confirms this: `0 - 64 + 128 + 2*64 = 192`.) -/
def extendedStopAx (shape blocksize overlap i : ℕ) : ℕ :=
  min shape (blocksize * i + blocksize + overlap)

/-- Canonical (un-overlapped) slice start for one axis: `blocksize*i`. -/
def canonicalStartAx (blocksize i : ℕ) : ℕ :=
  blocksize * i

/-- Canonical slice stop for one axis: `min(shape, blocksize*i + blocksize)`. -/
def canonicalStopAx (shape blocksize i : ℕ) : ℕ :=
  min shape (blocksize * i + blocksize)

/-! ## Overlap crop

From `distributed_transform._transform_single_block` (lines 236-262), per
axis, on a block whose extended slice is
`[extendedStartAx, extendedStopAx)`:

    start = block_coords[axis].start
    stop = block_coords[axis].stop
    if block_coords[axis].start != 0:
        aligned_block = aligned_block[overlap:]          (on this axis)
        start = start + blockoverlaps[axis]
    if aligned_block.shape[axis] > blocksize[axis]:
        aligned_block = aligned_block[:blocksize]        (on this axis)
        stop = start + aligned_block.shape[axis]

The same rule appears in `_invert_block` (lines 578-597) and in
`piecewise_transform` (lines 220-238).  The bookkeeping below mirrors it:
`cropLeftStart` / `cropLeftLen` are `start` and the axis length after the
left trim, `cropFinalStop` / `cropFinalLen` after the right trim.  -/

/-- `start` after the left trim. -/
def cropLeftStart (blocksize overlap i : ℕ) : ℕ :=
  if extendedStartAx blocksize overlap i ≠ 0 then
    extendedStartAx blocksize overlap i + overlap
  else extendedStartAx blocksize overlap i

/-- Axis length after the left trim (dropping `overlap` leading elements
of an array whose axis length is the extended-slice length). -/
def cropLeftLen (shape blocksize overlap i : ℕ) : ℕ :=
  if extendedStartAx blocksize overlap i ≠ 0 then
    extendedStopAx shape blocksize overlap i - extendedStartAx blocksize overlap i - overlap
  else
    extendedStopAx shape blocksize overlap i - extendedStartAx blocksize overlap i

/-- Axis length after the right trim. -/
def cropFinalLen (shape blocksize overlap i : ℕ) : ℕ :=
  if blocksize < cropLeftLen shape blocksize overlap i then blocksize
  else cropLeftLen shape blocksize overlap i

/-- `stop` after the right trim: recomputed as `start + length` when the
right trim fires, otherwise left at the extended-slice stop. -/
def cropFinalStop (shape blocksize overlap i : ℕ) : ℕ :=
  if blocksize < cropLeftLen shape blocksize overlap i then
    cropLeftStart blocksize overlap i + blocksize
  else extendedStopAx shape blocksize overlap i

/-- Left half of the crop, applied along one axis of the block result
(modelled on a list holding that axis): drop the first `overlap` entries
when the extended start is interior. -/
def cropLeftArray (xs : List α) (blocksize overlap i : ℕ) : List α :=
  if extendedStartAx blocksize overlap i ≠ 0 then xs.drop overlap else xs

/-- The full crop along one axis: left trim, then keep at most
`blocksize` entries. -/
def cropArray (xs : List α) (blocksize overlap i : ℕ) : List α :=
  if blocksize < (cropLeftArray xs blocksize overlap i).length then
    (cropLeftArray xs blocksize overlap i).take blocksize
  else cropLeftArray xs blocksize overlap i

/-! ## Transform localization

From `distributed_transform._transform_single_block` (lines 176-186):

    for iii, transform in enumerate(transform_list):
        if transform.shape != (4, 4):
            start = np.floor(fix_origin / transform_spacing_list[iii]).astype(int)
            stop = [s.stop for s in block_coords] * fix_spacing / transform_spacing_list[iii]
            stop = np.ceil(stop).astype(int)
            transform = transform[tuple(slice(a, b) for a, b in zip(start, stop))]
            transform_origin[iii] = start * transform_spacing_list[iii]
        applied_transform_list.append(transform)

`fix_origin` is the block's physical origin and the second line is the
block's physical stop divided by the transform's spacing.  Numpy basic
slicing clips `slice(a, b)` to the array's shape (`min` with the shape;
`start ≥ 0` holds because the block origin is non-negative and spacings
are positive, so `toNat` is faithful).  The same logic appears in
`piecewise_transform` lines 147-157.  -/

/-- A transform in a chain: a 4x4 affine matrix, or a displacement field
given by its spatial voxel shape and per-voxel vectors (the trailing
length-3 axis of the numpy array is the inner `Fin 3 → ℚ`). -/
inductive BlockTransform where
  | affine (m : Matrix (Fin 4) (Fin 4) ℚ)
  | field (shape : Fin 3 → ℕ) (values : (Fin 3 → ℕ) → Fin 3 → ℚ)

/-- Effective crop start used for a field: `floor(fix_origin / spacing)`,
clipped by numpy slicing to the field's shape. -/
def localFieldCropStart (fixOrigin sp : Fin 3 → ℚ) (S : Fin 3 → ℕ) (a : Fin 3) : ℕ :=
  min (⌊fixOrigin a / sp a⌋).toNat (S a)

/-- Effective crop stop used for a field: `ceil(phys_stop / spacing)`,
clipped by numpy slicing to the field's shape. -/
def localFieldCropStop (physStop sp : Fin 3 → ℚ) (S : Fin 3 → ℕ) (a : Fin 3) : ℕ :=
  min (⌈physStop a / sp a⌉).toNat (S a)

/-- Localize one transform to a block: affines pass through unchanged
(with the block's physical origin recorded); a field is cropped to
`[floor(fix_origin/sp), ceil(phys_stop/sp))` clipped to its shape, and
its recorded local origin is `floor(fix_origin/sp) * sp`. -/
def localizeTransform (fixOrigin physStop sp : Fin 3 → ℚ) :
    BlockTransform → BlockTransform × (Fin 3 → ℚ)
  | .affine m => (.affine m, fixOrigin)
  | .field S vals =>
      (.field (fun a => localFieldCropStop physStop sp S a - localFieldCropStart fixOrigin sp S a)
              (fun x a => vals (fun c => localFieldCropStart fixOrigin sp S c + x c) a),
       fun a => ⌊fixOrigin a / sp a⌋ * sp a)

/-- Localize a whole chain: the loop pairs each transform with its own
spacing and appends in order. -/
def localizeChain (fixOrigin physStop : Fin 3 → ℚ)
    (chain : List BlockTransform) (spacings : List (Fin 3 → ℚ)) :
    List (BlockTransform × (Fin 3 → ℚ)) :=
  (chain.zip spacings).map fun ts => localizeTransform fixOrigin physStop ts.2 ts.1

/-- The claim's crop range, written in the spec's words: the voxel range
`[floor(block_physical_origin / spacing_t), ceil(block_physical_stop /
spacing_t))` clipped to the field's own shape (as integers). -/
def claimCropStart (fixOrigin sp : Fin 3 → ℚ) (S : Fin 3 → ℕ) (a : Fin 3) : ℤ :=
  min ⌊fixOrigin a / sp a⌋ (S a)

/-- Companion stop of `claimCropStart`. -/
def claimCropStop (physStop sp : Fin 3 → ℚ) (S : Fin 3 → ℕ) (a : Fin 3) : ℤ :=
  min ⌈physStop a / sp a⌉ (S a)

/-- Concrete block physical origin used in witness scenarios. -/
def witOrigin : Fin 3 → ℚ := fun _ => 2

/-- Concrete block physical stop used in witness scenarios. -/
def witStop : Fin 3 → ℚ := fun _ => 6

/-- Concrete transform spacing used in witness scenarios. -/
def witSp : Fin 3 → ℚ := fun _ => 1

/-- Concrete displacement-field voxel shape used in witness scenarios. -/
def witShape : Fin 3 → ℕ := fun _ => 4

/-- Concrete displacement-field values used in witness scenarios. -/
def witVals : (Fin 3 → ℕ) → Fin 3 → ℚ := fun _ _ => 0

/-! ## Moving-region bounding box

From `distributed_transform._transform_single_block` (lines 188-214):

    for corner in list(product([0, 1], repeat=3)):
        a = [x.stop-1 if y else x.start for x, y in zip(block_coords, corner)]
        fix_block_coords.append(a)
    fix_block_coords = np.array(fix_block_coords) * fix_spacing
    mov_block_coords = cs_transform.apply_transform_to_coordinates(...)
    mov_block_coords = np.round(mov_block_coords / mov_spacing).astype(int)
    mov_block_coords = np.maximum(0, mov_block_coords)
    mov_block_coords = np.minimum(full_mov.shape, mov_block_coords)
    mov_start = np.min(mov_block_coords, axis=0)
    mov_stop = np.max(mov_block_coords, axis=0)

`block_coords` here is the block's *extended* slice (that is what
`distributed_apply_transform` submits).  The external coordinate-mapping
collaborator preserves count and order, so it enters as a pointwise map
`φ` on physical points.  -/

/-- The 8 corners enumerated by `itertools.product([0, 1], repeat=3)`. -/
def cornerList : List (Fin 3 → Bool) :=
  [![false, false, false], ![false, false, true],
   ![false, true, false], ![false, true, true],
   ![true, false, false], ![true, false, true],
   ![true, true, false], ![true, true, true]]

/-- A corner of the voxel box `[start, stop)`: per axis, `stop - 1` for a
`true` component and `start` otherwise. -/
def blockCornerVoxel (start stop : Fin 3 → ℕ) (c : Fin 3 → Bool) (a : Fin 3) : ℕ :=
  if c a then stop a - 1 else start a

/-- One corner mapped through the chain (`φ`), converted to moving voxel
indices (`round(· / mov_spacing)`) and clipped to `[0, mov_shape]`. -/
def movMappedCorner (φ : (Fin 3 → ℚ) → Fin 3 → ℚ) (fixSp movSp : Fin 3 → ℚ)
    (movShape : Fin 3 → ℕ) (start stop : Fin 3 → ℕ) (c : Fin 3 → Bool) (a : Fin 3) : ℤ :=
  min (movShape a : ℤ)
    (max 0 (roundHalfEven
      (φ (fun k => (blockCornerVoxel start stop c k : ℚ) * fixSp k) a / movSp a)))

/-- `mov_start`: per-axis minimum over the 8 mapped corners. -/
def movBoxStart (φ : (Fin 3 → ℚ) → Fin 3 → ℚ) (fixSp movSp : Fin 3 → ℚ)
    (movShape : Fin 3 → ℕ) (start stop : Fin 3 → ℕ) (a : Fin 3) : ℤ :=
  (cornerList.map (fun c => movMappedCorner φ fixSp movSp movShape start stop c a)).foldl
    min (movMappedCorner φ fixSp movSp movShape start stop ![false, false, false] a)

/-- `mov_stop`: per-axis maximum over the 8 mapped corners. -/
def movBoxStop (φ : (Fin 3 → ℚ) → Fin 3 → ℚ) (fixSp movSp : Fin 3 → ℚ)
    (movShape : Fin 3 → ℕ) (start stop : Fin 3 → ℕ) (a : Fin 3) : ℤ :=
  (cornerList.map (fun c => movMappedCorner φ fixSp movSp movShape start stop c a)).foldl
    max (movMappedCorner φ fixSp movSp movShape start stop ![false, false, false] a)

/-- The moving region actually fetched for a planner block: the corner
box of the block's *extended* slice. -/
def fetchedMovBox (s b v i : Fin 3 → ℕ) (φ : (Fin 3 → ℚ) → Fin 3 → ℚ)
    (fixSp movSp : Fin 3 → ℚ) (movShape : Fin 3 → ℕ) :
    (Fin 3 → ℤ) × (Fin 3 → ℤ) :=
  (fun a => movBoxStart φ fixSp movSp movShape
      (fun k => extendedStartAx (b k) (v k) (i k))
      (fun k => extendedStopAx (s k) (b k) (v k) (i k)) a,
   fun a => movBoxStop φ fixSp movSp movShape
      (fun k => extendedStartAx (b k) (v k) (i k))
      (fun k => extendedStopAx (s k) (b k) (v k) (i k)) a)

/-- The claim's version: the same corner box computed from the block's
*canonical* slice instead. -/
def canonicalMovBox (s b i : Fin 3 → ℕ) (φ : (Fin 3 → ℚ) → Fin 3 → ℚ)
    (fixSp movSp : Fin 3 → ℚ) (movShape : Fin 3 → ℕ) :
    (Fin 3 → ℤ) × (Fin 3 → ℤ) :=
  (fun a => movBoxStart φ fixSp movSp movShape
      (fun k => canonicalStartAx (b k) (i k))
      (fun k => canonicalStopAx (s k) (b k) (i k)) a,
   fun a => movBoxStop φ fixSp movSp movShape
      (fun k => canonicalStartAx (b k) (i k))
      (fun k => canonicalStopAx (s k) (b k) (i k)) a)

/-! ## Result assembly and the return value of the resample orchestrator

From `distributed_transform.distributed_apply_transform` (lines 136-150):

    for batch in as_completed(futures, with_results=True).batches():
        for _, result in batch:
            finished_block_coords, aligned_block = result
            if aligned_data is not None:
                aligned_data[finished_block_coords] = aligned_block

The function body ends after this loop with **no return statement**, so
the Python function returns `None` in every case — even though its
docstring (lines 80-85) promises "If aligned_data is not None this will
be the output.  Otherwise it returns a numpy array."  The model below
captures both the write effect on the sink and the caller-visible return
value.  -/

/-- An in-memory 3-d output array. -/
def ArrayD : Type := (Fin 3 → ℕ) → ℚ

/-- A finished block result: its placement slice (start, stop per axis)
and its data. -/
def BlockResult : Type := ((Fin 3 → ℕ) × (Fin 3 → ℕ)) × ((Fin 3 → ℕ) → ℚ)

/-- `aligned_data[finished_block_coords] = aligned_block`. -/
def writeBlock (arr : ArrayD) (res : BlockResult) : ArrayD := fun x =>
  if ∀ a, res.1.1 a ≤ x a ∧ x a < res.1.2 a then res.2 x else arr x

/-- The result-consumption phase of `distributed_apply_transform`:
given the optional output sink and the stream of finished block results,
returns the final sink contents paired with the function's return value.
The body writes each block into the sink when one is configured, and
falls off the end of the function, returning Python's `None`. -/
def distributedApplyTransformRun (alignedData : Option ArrayD)
    (results : List BlockResult) : Option ArrayD × Option ArrayD :=
  (match alignedData with
   | some arr => some (results.foldl writeBlock arr)
   | none => none,
   none)

/-! ## Orchestration-time handling of `transform_spacing`

From `distributed_transform.distributed_apply_transform` (lines 93-106):

    if transform_spacing is None:
        transform_spacing_list = ((np.array(fix_spacing),) * len(transform_list))
    elif not isinstance(transform_spacing, tuple):
        transform_spacing_list = ((transform_spacing,) * len(transform_list))
    else:
        # transform spacing is a tuple
        # assume it's length matches transform list length
        transform_spacing_list = transform_spacing

No length validation and no transform-shape validation happens anywhere
in the function before (or after) the blocks are submitted with
`cluster.client.map`; there is no ConfigurationError-style exception in
the repository.  The `Except` result type records whether an error could
be raised at orchestration time: the code always returns `.ok`.  -/

/-- The `transform_spacing` argument: absent, a single spacing, or a
tuple of spacings. -/
inductive TransformSpacingArg where
  | single (sp : Fin 3 → ℚ)
  | tupleOf (l : List (Fin 3 → ℚ))

/-- Normalization of `transform_spacing` into `transform_spacing_list`
at orchestration time, before any block task is submitted. -/
def transformSpacingList (fixSpacing : Fin 3 → ℚ)
    (tsp : Option TransformSpacingArg) (nTransforms : ℕ) :
    Except String (List (Fin 3 → ℚ)) :=
  match tsp with
  | none => .ok (List.replicate nTransforms fixSpacing)
  | some (.single sp) => .ok (List.replicate nTransforms sp)
  | some (.tupleOf l) => .ok l

/-! ## Per-bucket coordinate transform (payload columns)

From `distributed_transform._transform_coords` (lines 406-439):

    points_coords = coord_indexed_values[:, 0:3]
    points_values = coord_indexed_values[:, 3:]
    ...
    warped_coords = cs_transform.apply_transform_to_coordinates(points_coords, ...)
    warped_coord_indexed_values = np.empty_like(coord_indexed_values)
    warped_coord_indexed_values[:, 0:3] = warped_coords
    warped_coord_indexed_values[:, 3:] = points_values

A row is its first 3 (spatial) columns plus the trailing payload
columns; the external coordinate mapper preserves count and order, so it
enters as a pointwise map `φ` on the spatial part.  -/

/-- The body of `_transform_coords` at the row level. -/
def transformCoordsRows (φ : (Fin 3 → ℚ) → Fin 3 → ℚ)
    (rows : List ((Fin 3 → ℚ) × List ℚ)) : List ((Fin 3 → ℚ) × List ℚ) :=
  ((rows.map Prod.fst).map φ).zip (rows.map Prod.snd)

/-! ## Bucket bounding boxes and per-bucket transform localization

Two implementations exist:

`piecewise_transform.transform_partition` (lines 364-381) — tight
bounding box of the bucket's points:

    a = np.min(coordinates, axis=0)
    b = np.max(coordinates, axis=0)
    ...
    start = np.floor(a / spacing).astype(int)
    last_index = np.array(transform.shape[:-1]) - 1
    start = np.minimum(last_index, start)
    stop = np.ceil(b / spacing).astype(int) + 1

`distributed_transform._transform_coords` (lines 409-427) — the fixed
grid-cell voxel slice, not the points' bounding box:

    start = block_slice_coords[axis].start
    stop = block_slice_coords[axis].stop
    if transform.shape[axis] > stop:
        crop_slices.append(slice(start, transform.shape[axis]))
    else:
        crop_slices.append(slice(start, stop))
-/

/-- `np.min(coordinates, axis=0)` on a point list (0 on an empty list,
which the code never reaches). -/
def ptsMin {d : ℕ} (pts : List (Fin d → ℚ)) (a : Fin d) : ℚ :=
  match pts with
  | [] => 0
  | p :: rest => (rest.map (fun q => q a)).foldl min (p a)

/-- `np.max(coordinates, axis=0)` on a point list. -/
def ptsMax {d : ℕ} (pts : List (Fin d → ℚ)) (a : Fin d) : ℚ :=
  match pts with
  | [] => 0
  | p :: rest => (rest.map (fun q => q a)).foldl max (p a)

/-- Crop start of `transform_partition`: `min(shape-1, floor(min/sp))`. -/
def partitionCropStart (pts : List (Fin 3 → ℚ)) (sp : Fin 3 → ℚ)
    (S : Fin 3 → ℕ) (a : Fin 3) : ℤ :=
  min ((S a : ℤ) - 1) ⌊ptsMin pts a / sp a⌋

/-- Crop stop of `transform_partition`: `ceil(max/sp) + 1`. -/
def partitionCropStop (pts : List (Fin 3 → ℚ)) (sp : Fin 3 → ℚ) (a : Fin 3) : ℤ :=
  ⌈ptsMax pts a / sp a⌉ + 1

/-- Crop slice of `_transform_coords`: the bucket's fixed grid-cell
voxel slice, with the stop replaced by the transform's shape whenever
the transform extends beyond the cell. -/
def gridCropSlice (blockStart blockStop : Fin 3 → ℕ) (S : Fin 3 → ℕ)
    (a : Fin 3) : ℤ × ℤ :=
  if blockStop a < S a then ((blockStart a : ℤ), (S a : ℤ))
  else ((blockStart a : ℤ), (blockStop a : ℤ))

/-- Concrete bucket point used in witness/counterexample scenarios. -/
def witPoint : Fin 3 → ℚ := fun _ => 5

/-- Concrete transform voxel shape used in C9 scenarios. -/
def witFieldShape : Fin 3 → ℕ := fun _ => 20

/-- Concrete grid-cell start used in C9 scenarios. -/
def witCellStart : Fin 3 → ℕ := fun _ => 0

/-- Concrete grid-cell stop used in C9 scenarios. -/
def witCellStop : Fin 3 → ℕ := fun _ => 10

/-- Concrete 1-d coordinate (0) used in C6 scenarios. -/
def witCoordA : Fin 1 → ℚ := fun _ => 0

/-- Concrete 1-d coordinate (10, interior) used in C6 scenarios. -/
def witCoordB : Fin 1 → ℚ := fun _ => 10

/-- Concrete 1-d coordinate (30, exactly on the upper extent boundary
when paired with `witCoordA` and partition size 30) used in C6
scenarios. -/
def witCoordC : Fin 1 → ℚ := fun _ => 30

/-- Concrete 3-d point `(10,0,0)` used in the grid-aligned C6 scenario:
listed first in the input but bucketed second. -/
def witGridP0 : Fin 3 → ℚ := ![10, 0, 0]

/-- Concrete 3-d point `(0,0,0)` used in the grid-aligned C6 scenario:
listed second in the input but bucketed first. -/
def witGridP1 : Fin 3 → ℚ := ![0, 0, 0]

/-! ## Coordinate partitioning (extent-driven variant)

From `piecewise_transform.distributed_apply_transform_to_coordinates`
(lines 348-398):

    origin = np.min(coordinates, axis=0)
    nblocks = np.max(coordinates, axis=0) - origin
    nblocks = np.ceil(nblocks / partition_size).astype(int)
    partitions, indices = [], []
    for index in np.ndindex(*nblocks):
        lower_bound = origin + partition_size * np.array(index)
        upper_bound = lower_bound + partition_size
        not_too_low = np.all(coordinates >= lower_bound, axis=1)
        not_too_high = np.all(coordinates < upper_bound, axis=1)
        part_indices = np.nonzero( not_too_low * not_too_high )[0]
        if part_indices.size != 0:
            partitions.append(coordinates[part_indices])
            indices.append(part_indices)
    indices = np.concatenate(indices, axis=0)
    ...
    permuted = np.concatenate(cluster.client.gather(futures), axis=0)
    results = np.empty_like(permuted)
    results[indices] = permuted
    return results

The per-bucket transform is the external count- and order-preserving
coordinate mapper, so it enters as a pointwise map `f`.  Skipping empty
buckets changes neither concatenation (an empty bucket contributes
nothing), so the model keeps every bucket.  `np.empty_like(permuted)` is
modelled as a list of `none`s of the same length, so an output entry
that the scatter never writes stays `none` instead of holding garbage. -/

/-- `nblocks`: per axis, `ceil((max - min) / partition_size)`. -/
def nblocksCoord {d : ℕ} (pts : List (Fin d → ℚ)) (ps : ℚ) (a : Fin d) : ℕ :=
  (⌈(ptsMax pts a - ptsMin pts a) / ps⌉).toNat

/-- `np.ndindex(*n)`: row-major enumeration of all multi-indices below
`n` (one empty index when `d = 0`, matching `np.ndindex()`). -/
def ndindexList : (d : ℕ) → (Fin d → ℕ) → List (Fin d → ℕ)
  | 0, _ => [fun a => a.elim0]
  | d + 1, n =>
      (List.range (n 0)).flatMap fun j =>
        (ndindexList d fun a => n a.succ).map fun k => Fin.cons j k

/-- The bucket membership test `lower_bound <= p < upper_bound` with
`lower_bound = origin + partition_size * index`. -/
def inBucketB {d : ℕ} (origin : Fin d → ℚ) (ps : ℚ) (k : Fin d → ℕ)
    (p : Fin d → ℚ) : Bool :=
  decide (∀ a, origin a + ps * k a ≤ p a ∧ p a < origin a + ps * (k a + 1))

/-- `part_indices` for bucket `k`: the point indices passing the mask,
in increasing order (as `np.nonzero` returns them). -/
def bucketIdx {d : ℕ} (pts : List (Fin d → ℚ)) (ps : ℚ) (k : Fin d → ℕ) :
    List ℕ :=
  (List.range pts.length).filter fun j =>
    inBucketB (ptsMin pts) ps k (pts.getD j (fun _ => 0))

/-- `indices`: concatenation of the per-bucket index arrays in ndindex
order. -/
def partitionIndices {d : ℕ} (pts : List (Fin d → ℚ)) (ps : ℚ) : List ℕ :=
  (ndindexList d (nblocksCoord pts ps)).flatMap (bucketIdx pts ps)

/-- `permuted`: concatenation of the per-bucket transform results, in
the same bucket order. -/
def partitionPermuted {d : ℕ} (pts : List (Fin d → ℚ)) (ps : ℚ)
    (f : (Fin d → ℚ) → Fin d → ℚ) : List (Fin d → ℚ) :=
  (ndindexList d (nblocksCoord pts ps)).flatMap fun k =>
    (bucketIdx pts ps k).map fun j => f (pts.getD j (fun _ => 0))

/-- `results[indices] = permuted`: fold the position/value pairs into an
initial array with `List.set`. -/
def scatterSet (init : List (Option α)) (pairs : List (ℕ × α)) :
    List (Option α) :=
  pairs.foldl (fun acc iv => acc.set iv.1 (some iv.2)) init

/-- The returned `results` array: `np.empty_like(permuted)` scattered
through the partition indices. -/
def partitionResults {d : ℕ} (pts : List (Fin d → ℚ)) (ps : ℚ)
    (f : (Fin d → ℚ) → Fin d → ℚ) : List (Option (Fin d → ℚ)) :=
  scatterSet (List.replicate (partitionPermuted pts ps f).length none)
    ((partitionIndices pts ps).zip (partitionPermuted pts ps f))

/-! ## Coordinate partitioning (grid-aligned variant)

From `distributed_transform.distributed_apply_transform_to_coordinates`
(lines 328-390):

    phys_blocksize = np.array(voxel_blocksize)*coords_spacing
    min_coord = np.min(coordinates[:, 0:3], axis=0)
    max_coord = np.max(coordinates[:, 0:3], axis=0)
    vol_size = max_coord - min_coord
    nblocks = np.ceil(vol_size / phys_blocksize + 1).astype(int)
    for (i, j, k) in np.ndindex(*nblocks):
        lower_bound = min_coord + phys_blocksize * np.array(block_index)
        upper_bound = lower_bound + phys_blocksize
        not_too_low = np.all(coordinates[:, 0:3] >= lower_bound, axis=1)
        not_too_high = np.all(coordinates[:, 0:3] < upper_bound, axis=1)
        pcoords = coordinates[not_too_low * not_too_high]
        if pcoords.size > 0: ... append ...
    futures = cluster.client.map(_transform_coords, ...)
    results = cluster.client.gather(futures)
    return np.concatenate(results, axis=0)

Unlike the extent-driven variant this one keeps no `indices` array and
performs no `results[indices] = permuted` scatter: `gather` returns the
per-bucket results in submission (= ndindex) order and the function
returns their plain concatenation.  Rows are modelled by their first 3
(spatial) columns, the ones the bucketing reads (payload columns ride
along unchanged, see `transformCoordsRows`); skipping empty buckets
changes nothing in the concatenation.  -/

/-- `phys_blocksize = voxel_blocksize * coords_spacing`, per axis. -/
def physBlocksize (voxelBs : Fin 3 → ℕ) (sp : Fin 3 → ℚ) (a : Fin 3) : ℚ :=
  (voxelBs a) * sp a

/-- `nblocks = ceil(vol_size / phys_blocksize + 1)` per axis — note the
`+ 1` boundary margin absent from the extent-driven variant. -/
def nblocksGrid (pts : List (Fin 3 → ℚ)) (voxelBs : Fin 3 → ℕ)
    (sp : Fin 3 → ℚ) (a : Fin 3) : ℕ :=
  (⌈(ptsMax pts a - ptsMin pts a) / physBlocksize voxelBs sp a + 1⌉).toNat

/-- The grid bucket membership test, with its per-axis physical pitch. -/
def inBucketGridB (origin phys : Fin 3 → ℚ) (k : Fin 3 → ℕ)
    (p : Fin 3 → ℚ) : Bool :=
  decide (∀ a, origin a + phys a * k a ≤ p a ∧ p a < origin a + phys a * (k a + 1))

/-- The point indices falling in grid bucket `k`, in increasing order. -/
def gridBucketIdx (pts : List (Fin 3 → ℚ)) (voxelBs : Fin 3 → ℕ)
    (sp : Fin 3 → ℚ) (k : Fin 3 → ℕ) : List ℕ :=
  (List.range pts.length).filter fun j =>
    inBucketGridB (ptsMin pts) (physBlocksize voxelBs sp) k (pts.getD j (fun _ => 0))

/-- The original index of every bucketed point, in bucket (ndindex)
order — bookkeeping the grid variant computes implicitly but never uses
for any inverse-permutation scatter. -/
def gridIndices (pts : List (Fin 3 → ℚ)) (voxelBs : Fin 3 → ℕ)
    (sp : Fin 3 → ℚ) : List ℕ :=
  (ndindexList 3 (nblocksGrid pts voxelBs sp)).flatMap (gridBucketIdx pts voxelBs sp)

/-- The grid variant's return value: `np.concatenate` of the gathered
per-bucket transform results, in bucket order. -/
def gridGatherConcat (pts : List (Fin 3 → ℚ)) (voxelBs : Fin 3 → ℕ)
    (sp : Fin 3 → ℚ) (f : (Fin 3 → ℚ) → Fin 3 → ℚ) : List (Fin 3 → ℚ) :=
  (ndindexList 3 (nblocksGrid pts voxelBs sp)).flatMap fun k =>
    (gridBucketIdx pts voxelBs sp k).map fun j => f (pts.getD j (fun _ => 0))

/-! ## Helper lemmas on the planner arithmetic -/

theorem lt_nblocksAxis_iff (s b i : ℕ) (hb : 0 < b) :
    i < nblocksAxis s b ↔ b * i < s := by
  unfold nblocksAxis
  rw [Nat.lt_iff_add_one_le, Nat.le_div_iff_mul_le hb]
  have h1 : (i + 1) * b = b * i + b := by ring
  rw [h1]
  generalize b * i = m
  omega

/-- Per-axis tiling: each in-range coordinate lies in exactly one canonical
slice, namely the one of block index `x / b`. -/
theorem canonicalAx_mem_unique (s b : ℕ) (hb : 0 < b) (x : ℕ) (hx : x < s) :
    ∃! i : ℕ, i < nblocksAxis s b ∧
      (canonicalStartAx b i ≤ x ∧ x < canonicalStopAx s b i) := by
  have hmod := Nat.div_add_mod x b
  have hmlt := Nat.mod_lt x hb
  have hlo : b * (x / b) ≤ x := by omega
  have hhi : x < b * (x / b) + b := by omega
  refine ⟨x / b, ⟨?_, ?_, ?_⟩, ?_⟩
  · exact (lt_nblocksAxis_iff s b _ hb).mpr (lt_of_le_of_lt hlo hx)
  · simpa [canonicalStartAx] using hlo
  · rw [canonicalStopAx, lt_min_iff]
    exact ⟨hx, hhi⟩
  · rintro j ⟨-, hj1, hj2⟩
    rw [canonicalStartAx] at hj1
    rw [canonicalStopAx, lt_min_iff] at hj2
    symm
    refine Nat.div_eq_of_lt_le (by rwa [Nat.mul_comm]) ?_
    have hjb : (j + 1) * b = b * j + b := by ring
    omega

/-- The crop of a list with the extended-slice length follows the
`cropLeftLen` / `cropFinalLen` bookkeeping. -/
theorem cropLeftArray_length (xs : List α) (s b v i : ℕ)
    (hxs : xs.length = extendedStopAx s b v i - extendedStartAx b v i) :
    (cropLeftArray xs b v i).length = cropLeftLen s b v i := by
  simp only [cropLeftArray, cropLeftLen]
  split <;> simp [List.length_drop, hxs]

theorem cropArray_length (xs : List α) (s b v i : ℕ)
    (hxs : xs.length = extendedStopAx s b v i - extendedStartAx b v i) :
    (cropArray xs b v i).length = cropFinalLen s b v i := by
  simp only [cropArray, cropFinalLen, cropLeftArray_length xs s b v i hxs]
  split
  · rename_i h
    rw [List.length_take, cropLeftArray_length xs s b v i hxs, min_eq_left h.le]
  · exact cropLeftArray_length xs s b v i hxs

/-! # Claim theorems -/

/-- **C1** (confirmed).  For every volume shape, per-axis block size
(positive) and any overlap, the canonical block extents
`[blocksize*i, blocksize*i+blocksize)` clipped to the shape, with `i`
ranging over `ceil(shape/blocksize)` indices per axis, tile the volume:
every in-bounds voxel lies in the canonical extent of exactly one block
index.  (The overlap factor plays no role in the canonical extents.) -/
theorem C1_canonical_tiling (d : ℕ) (s b : Fin d → ℕ) (hb : ∀ a, 0 < b a)
    (x : Fin d → ℕ) (hx : ∀ a, x a < s a) :
    ∃! i : Fin d → ℕ,
      (∀ a, i a < nblocksAxis (s a) (b a)) ∧
      ∀ a, canonicalStartAx (b a) (i a) ≤ x a ∧
        x a < canonicalStopAx (s a) (b a) (i a) := by
  have hax : ∀ a, x a / b a < nblocksAxis (s a) (b a) ∧
      (canonicalStartAx (b a) (x a / b a) ≤ x a ∧
       x a < canonicalStopAx (s a) (b a) (x a / b a)) := by
    intro a
    have hmod := Nat.div_add_mod (x a) (b a)
    have hmlt := Nat.mod_lt (x a) (hb a)
    have hxa := hx a
    refine ⟨(lt_nblocksAxis_iff (s a) (b a) _ (hb a)).mpr (by omega), ?_, ?_⟩
    · simp only [canonicalStartAx]; omega
    · rw [canonicalStopAx, lt_min_iff]; exact ⟨hxa, by omega⟩
  refine ⟨fun a => x a / b a, ⟨fun a => (hax a).1, fun a => (hax a).2⟩, ?_⟩
  rintro j hj
  funext a
  obtain ⟨i0, -, huniq⟩ := canonicalAx_mem_unique (s a) (b a) (hb a) (x a) (hx a)
  have h1 := huniq (j a) ⟨hj.1 a, hj.2 a⟩
  have h2 := huniq (x a / b a) (hax a)
  rw [h1, h2]

/-- Witness for C1: shape 3, block size 2 on one axis; voxel 2 lies in
exactly one canonical extent (that of block index 1). -/
theorem C1_canonical_tiling_witness :
    (∀ a : Fin 1, 0 < (![2] : Fin 1 → ℕ) a) ∧
    (∀ a : Fin 1, (![2] : Fin 1 → ℕ) a < (![3] : Fin 1 → ℕ) a) ∧
    ∃! i : Fin 1 → ℕ,
      (∀ a, i a < nblocksAxis ((![3] : Fin 1 → ℕ) a) ((![2] : Fin 1 → ℕ) a)) ∧
      ∀ a, canonicalStartAx ((![2] : Fin 1 → ℕ) a) (i a) ≤ (![2] : Fin 1 → ℕ) a ∧
        (![2] : Fin 1 → ℕ) a < canonicalStopAx ((![3] : Fin 1 → ℕ) a) ((![2] : Fin 1 → ℕ) a) (i a) :=
  ⟨by decide, by decide, C1_canonical_tiling 1 ![3] ![2] (by decide) ![2] (by decide)⟩

/-- **C2** (corrected: requires `overlap < blocksize` on the axis; the
claim's unconditional version fails when `overlap = blocksize`, which the
planner produces for `overlap_factor = 1`, see `C2_counterexample`).
For every planner block (`blocksize*i < shape`, i.e. `i < nblocks`) with
`0 < blocksize` and `overlap < blocksize`, the axis-by-axis overlap crop
applied to an array with the extended-slice length yields the canonical
extent's (boundary-shortened) length, and the recomputed placement slice
equals the canonical slice `[blocksize*i, min
(shape, blocksize*i+blocksize))`. -/
theorem C2_overlap_crop (s b v i : ℕ) (xs : List ℕ) (hb : 0 < b)
    (hvb : v < b) (hi : b * i < s)
    (hxs : xs.length = extendedStopAx s b v i - extendedStartAx b v i) :
    cropLeftStart b v i = canonicalStartAx b i ∧
    cropFinalStop s b v i = canonicalStopAx s b i ∧
    cropFinalLen s b v i = canonicalStopAx s b i - canonicalStartAx b i ∧
    (cropArray xs b v i).length = canonicalStopAx s b i - canonicalStartAx b i := by
  have hnum : cropLeftStart b v i = canonicalStartAx b i ∧
      cropFinalStop s b v i = canonicalStopAx s b i ∧
      cropFinalLen s b v i = canonicalStopAx s b i - canonicalStartAx b i := by
    rcases Nat.eq_zero_or_pos i with hi0 | hip
    · subst hi0
      simp only [cropLeftStart, cropFinalStop, cropFinalLen, cropLeftLen,
        extendedStartAx, extendedStopAx, canonicalStartAx, canonicalStopAx,
        Nat.mul_zero, Nat.zero_sub, Nat.zero_add, Nat.min_def]
      split_ifs <;> refine ⟨by omega, by omega, by omega⟩
    · have hbi : b ≤ b * i := Nat.le_mul_of_pos_right b hip
      simp only [cropLeftStart, cropFinalStop, cropFinalLen, cropLeftLen,
        extendedStartAx, extendedStopAx, canonicalStartAx, canonicalStopAx,
        Nat.min_def]
      split_ifs <;> refine ⟨by omega, by omega, by omega⟩
  refine ⟨hnum.1, hnum.2.1, hnum.2.2, ?_⟩
  rw [cropArray_length xs s b v i hxs]
  exact hnum.2.2

/-- Counterexample for C2 as stated: shape 3, blocksize 2,
overlap 2 (= `round(2 * 1.0)`, produced by overlap factor 1), block index 1.
The extended slice is `[0:3)`, so its start is 0 and the left trim is
skipped; the crop then yields length 2 with placement slice `[0:2)`,
while the canonical slice is `[2:3)` of length 1. -/
theorem C2_counterexample :
    overlapAxis 2 1 = 2 ∧
    (cropLeftStart 2 2 1, cropFinalStop 3 2 2 1) ≠
      (canonicalStartAx 2 1, canonicalStopAx 3 2 1) ∧
    cropFinalLen 3 2 2 1 ≠ canonicalStopAx 3 2 1 - canonicalStartAx 2 1 ∧
    (cropArray [10, 20, 30] 2 2 1).length ≠
      canonicalStopAx 3 2 1 - canonicalStartAx 2 1 := by
  refine ⟨?_, by decide, by decide, by decide⟩
  norm_num [overlapAxis, roundHalfEven]

/-- Witness for C2: shape 4, blocksize 2, overlap 1, block 1 — the crop
of its length-3 extended result places exactly `[2:4)`. -/
theorem C2_overlap_crop_witness :
    0 < 2 ∧ 1 < 2 ∧ 2 * 1 < 4 ∧
    ([5, 6, 7] : List ℕ).length = extendedStopAx 4 2 1 1 - extendedStartAx 2 1 1 ∧
    (cropLeftStart 2 1 1 = canonicalStartAx 2 1 ∧
     cropFinalStop 4 2 1 1 = canonicalStopAx 4 2 1 ∧
     cropFinalLen 4 2 1 1 = canonicalStopAx 4 2 1 - canonicalStartAx 2 1 ∧
     (cropArray [5, 6, 7] 2 1 1).length = canonicalStopAx 4 2 1 - canonicalStartAx 2 1) :=
  ⟨by decide, by decide, by decide, by decide,
    C2_overlap_crop 4 2 1 1 [5, 6, 7] (by decide) (by decide) (by decide) (by decide)⟩

/-- **C3** (confirmed).  Block planning: `overlap = round(blocksize *
overlap_factor)` (`overlapAxis`, with numpy's half-to-even rounding),
`nblocks = ceil(shape / blocksize)` (`nblocksAxis`); the extended slice
starts at `blocksize*i - overlap` clipped to `≥ 0` (truncated `ℕ`
subtraction in `extendedStartAx`) and stops at `start + blocksize +
2*overlap` computed from the unclipped start then clipped to the shape
(`extendedStopAx`); every extended slice lies within the volume bounds
and contains its canonical slice; and the `(256,256,256)` /
`(128,128,128)` / factor-`0.5` scenario produces overlap 64, extended
extents `[0:192]` for block 0 and `[64:256]` for block 1 per axis, with
canonical extents `[0:128)` and `[128:256)`. -/
theorem C3_block_planning :
    (∀ s b v i : ℕ, extendedStopAx s b v i ≤ s) ∧
    (∀ s b v i : ℕ, extendedStartAx b v i ≤ canonicalStartAx b i ∧
      canonicalStopAx s b i ≤ extendedStopAx s b v i) ∧
    overlapAxis 128 (1 / 2) = 64 ∧
    nblocksAxis 256 128 = 2 ∧
    extendedStartAx 128 64 0 = 0 ∧ extendedStopAx 256 128 64 0 = 192 ∧
    extendedStartAx 128 64 1 = 64 ∧ extendedStopAx 256 128 64 1 = 256 ∧
    canonicalStartAx 128 0 = 0 ∧ canonicalStopAx 256 128 0 = 128 ∧
    canonicalStartAx 128 1 = 128 ∧ canonicalStopAx 256 128 1 = 256 := by
  refine ⟨?_, ?_, ?_, by decide, by decide, by decide, by decide, by decide,
    by decide, by decide, by decide, by decide⟩
  · intro s b v i
    exact Nat.min_le_left _ _
  · intro s b v i
    constructor
    · simp only [extendedStartAx, canonicalStartAx]
      omega
    · simp only [canonicalStopAx, extendedStopAx, Nat.min_def]
      split_ifs <;> omega
  · norm_num [overlapAxis, roundHalfEven]

theorem list_getD_map (l : List α) (f : α → β) (d : α) (j : ℕ) :
    (l.map f).getD j (f d) = f (l.getD j d) := by
  induction l generalizing j with
  | nil => simp
  | cons x xs ih =>
    cases j with
    | zero => simp
    | succ j => simp only [List.map_cons, List.getD_cons_succ]; exact ih j

theorem foldl_min_le_init [LinearOrder α] (x : α) (l : List α) :
    l.foldl min x ≤ x := by
  induction l generalizing x with
  | nil => exact le_refl x
  | cons y ys ih => exact le_trans (ih (min x y)) (min_le_left x y)

theorem foldl_min_le_mem [LinearOrder α] {l : List α} {y : α}
    (h : y ∈ l) : ∀ x : α, l.foldl min x ≤ y := by
  revert h
  induction l with
  | nil => intro h; cases h
  | cons z zs ih =>
    intro h x
    rcases List.mem_cons.mp h with rfl | h2
    · exact le_trans (foldl_min_le_init (min x y) zs) (min_le_right x y)
    · exact ih h2 (min x z)

theorem le_foldl_min [LinearOrder α] (c x : α) (l : List α) (hx : c ≤ x)
    (h : ∀ y ∈ l, c ≤ y) : c ≤ l.foldl min x := by
  induction l generalizing x with
  | nil => exact hx
  | cons z zs ih =>
    exact ih (min x z) (le_min hx (h z (List.mem_cons_self z zs)))
      (fun y hy => h y (List.mem_cons_of_mem z hy))

theorem init_le_foldl_max [LinearOrder α] (x : α) (l : List α) :
    x ≤ l.foldl max x := by
  induction l generalizing x with
  | nil => exact le_refl x
  | cons y ys ih => exact le_trans (le_max_left x y) (ih (max x y))

theorem mem_le_foldl_max [LinearOrder α] {l : List α} {y : α}
    (h : y ∈ l) : ∀ x : α, y ≤ l.foldl max x := by
  revert h
  induction l with
  | nil => intro h; cases h
  | cons z zs ih =>
    intro h x
    rcases List.mem_cons.mp h with rfl | h2
    · exact le_trans (le_max_right x y) (init_le_foldl_max (max x y) zs)
    · exact ih h2 (max x z)

theorem foldl_max_le [LinearOrder α] (c x : α) (l : List α) (hx : x ≤ c)
    (h : ∀ y ∈ l, y ≤ c) : l.foldl max x ≤ c := by
  induction l generalizing x with
  | nil => exact hx
  | cons z zs ih =>
    exact ih (max x z) (max_le hx (h z (List.mem_cons_self z zs)))
      (fun y hy => h y (List.mem_cons_of_mem z hy))

/-- **C4** (confirmed).  Localizing a transform chain to a block: every
4x4 affine passes through unmodified; every displacement field with
spacing `sp` is cropped to the voxel range `[floor(origin/sp),
ceil(stop/sp))` clipped to the field's own shape (numpy slice semantics),
with recorded local origin `floor(origin/sp) * sp` (`crop_start` being
the floor value, as in the code at `distributed_transform.py:180-184`);
and the chain is localized element by element, in order. -/
theorem C4_localize_chain (fixOrigin physStop sp : Fin 3 → ℚ) (S : Fin 3 → ℕ)
    (vals : (Fin 3 → ℕ) → Fin 3 → ℚ) (m : Matrix (Fin 4) (Fin 4) ℚ)
    (chain : List BlockTransform) (spacings : List (Fin 3 → ℚ))
    (h0 : ∀ a, 0 ≤ fixOrigin a) (hps : ∀ a, 0 ≤ physStop a)
    (hsp : ∀ a, 0 < sp a) :
    localizeTransform fixOrigin physStop sp (.affine m) = (.affine m, fixOrigin) ∧
    (∀ a, (localFieldCropStart fixOrigin sp S a : ℤ) = claimCropStart fixOrigin sp S a ∧
      (localFieldCropStop physStop sp S a : ℤ) = claimCropStop physStop sp S a) ∧
    (localizeTransform fixOrigin physStop sp (.field S vals)).2 =
      (fun a => ⌊fixOrigin a / sp a⌋ * sp a) ∧
    (localizeChain fixOrigin physStop chain spacings).length =
      min chain.length spacings.length ∧
    (∀ j : ℕ,
      (localizeChain fixOrigin physStop chain spacings).getD j
          (localizeTransform fixOrigin physStop sp (.affine m)) =
        localizeTransform fixOrigin physStop
          ((chain.zip spacings).getD j (.affine m, sp)).2
          ((chain.zip spacings).getD j (.affine m, sp)).1) := by
  refine ⟨rfl, fun a => ⟨?_, ?_⟩, rfl, ?_, fun j => ?_⟩
  · have hf : (0 : ℤ) ≤ ⌊fixOrigin a / sp a⌋ :=
      Int.floor_nonneg.mpr (div_nonneg (h0 a) (hsp a).le)
    simp only [localFieldCropStart, claimCropStart]
    push_cast [Int.toNat_of_nonneg hf]
    rfl
  · have hc : (0 : ℤ) ≤ ⌈physStop a / sp a⌉ :=
      Int.ceil_nonneg (div_nonneg (hps a) (hsp a).le)
    simp only [localFieldCropStop, claimCropStop]
    push_cast [Int.toNat_of_nonneg hc]
    rfl
  · simp [localizeChain]
  · exact list_getD_map (chain.zip spacings)
      (fun ts => localizeTransform fixOrigin physStop ts.2 ts.1) (.affine m, sp) j

/-- Witness for C4 at a concrete block: origin 2, physical stop 6,
spacing 1, field shape 4 (so the requested stop 6 is clipped to 4). -/
theorem C4_localize_chain_witness :
    (∀ a : Fin 3, 0 ≤ witOrigin a) ∧
    (∀ a : Fin 3, 0 ≤ witStop a) ∧
    (∀ a : Fin 3, 0 < witSp a) ∧
    (localizeTransform witOrigin witStop witSp (.affine 1) = (.affine 1, witOrigin) ∧
     (∀ a, (localFieldCropStart witOrigin witSp witShape a : ℤ) =
        claimCropStart witOrigin witSp witShape a ∧
       (localFieldCropStop witStop witSp witShape a : ℤ) =
        claimCropStop witStop witSp witShape a) ∧
     (localizeTransform witOrigin witStop witSp (.field witShape witVals)).2 =
       (fun a => ⌊witOrigin a / witSp a⌋ * witSp a) ∧
     (localizeChain witOrigin witStop
        [BlockTransform.field witShape witVals] [witSp]).length =
       min [BlockTransform.field witShape witVals].length [witSp].length ∧
     (∀ j : ℕ,
       (localizeChain witOrigin witStop
          [BlockTransform.field witShape witVals] [witSp]).getD j
           (localizeTransform witOrigin witStop witSp (.affine 1)) =
         localizeTransform witOrigin witStop
           (([BlockTransform.field witShape witVals].zip
              [witSp]).getD j (.affine 1, witSp)).2
           (([BlockTransform.field witShape witVals].zip
              [witSp]).getD j (.affine 1, witSp)).1)) :=
  ⟨fun _ => by norm_num [witOrigin], fun _ => by norm_num [witStop],
   fun _ => by norm_num [witSp],
    C4_localize_chain witOrigin witStop witSp witShape witVals 1
      [BlockTransform.field witShape witVals] [witSp]
      (fun _ => by norm_num [witOrigin]) (fun _ => by norm_num [witStop])
      (fun _ => by norm_num [witSp])⟩

/-- **C5** (corrected: the code enumerates the corners of the block's
*extended* slice, not of its canonical extent as the claim states — see
`C5_counterexample`).  The fetched moving region is the axis-aligned
bounding box of the 8 extended-slice corners (per axis, extended start
and extended stop − 1), mapped through the localized chain, converted to
moving voxel indices by rounding, and clipped to the moving volume
bounds: every mapped clipped corner lies inside the fetched per-axis
`[mov_start, mov_stop]` box, and the box lies inside `[0, mov_shape]`. -/
theorem C5_moving_region (s b v i : Fin 3 → ℕ) (φ : (Fin 3 → ℚ) → Fin 3 → ℚ)
    (fixSp movSp : Fin 3 → ℚ) (movShape : Fin 3 → ℕ) :
    (∀ c ∈ cornerList, ∀ a : Fin 3,
      (fetchedMovBox s b v i φ fixSp movSp movShape).1 a ≤
        movMappedCorner φ fixSp movSp movShape
          (fun k => extendedStartAx (b k) (v k) (i k))
          (fun k => extendedStopAx (s k) (b k) (v k) (i k)) c a ∧
      movMappedCorner φ fixSp movSp movShape
          (fun k => extendedStartAx (b k) (v k) (i k))
          (fun k => extendedStopAx (s k) (b k) (v k) (i k)) c a ≤
        (fetchedMovBox s b v i φ fixSp movSp movShape).2 a) ∧
    (∀ a : Fin 3, 0 ≤ (fetchedMovBox s b v i φ fixSp movSp movShape).1 a ∧
      (fetchedMovBox s b v i φ fixSp movSp movShape).2 a ≤ movShape a) := by
  have hcorner : ∀ (c : Fin 3 → Bool) (a : Fin 3),
      0 ≤ movMappedCorner φ fixSp movSp movShape
        (fun k => extendedStartAx (b k) (v k) (i k))
        (fun k => extendedStopAx (s k) (b k) (v k) (i k)) c a ∧
      movMappedCorner φ fixSp movSp movShape
        (fun k => extendedStartAx (b k) (v k) (i k))
        (fun k => extendedStopAx (s k) (b k) (v k) (i k)) c a ≤ movShape a := by
    intro c a
    constructor
    · exact le_min (Int.natCast_nonneg _) (le_max_left 0 _)
    · exact min_le_left _ _
  constructor
  · intro c hc a
    have hmem := List.mem_map_of_mem
      (fun c2 => movMappedCorner φ fixSp movSp movShape
        (fun k => extendedStartAx (b k) (v k) (i k))
        (fun k => extendedStopAx (s k) (b k) (v k) (i k)) c2 a) hc
    constructor
    · simp only [fetchedMovBox, movBoxStart]
      exact foldl_min_le_mem hmem _
    · simp only [fetchedMovBox, movBoxStop]
      exact mem_le_foldl_max hmem _
  · intro a
    constructor
    · simp only [fetchedMovBox, movBoxStart]
      refine le_foldl_min 0 _ _ (hcorner _ a).1 ?_
      intro y hy
      obtain ⟨c, -, rfl⟩ := List.mem_map.mp hy
      exact (hcorner c a).1
    · simp only [fetchedMovBox, movBoxStop]
      refine foldl_max_le _ _ _ (hcorner _ a).2 ?_
      intro y hy
      obtain ⟨c, -, rfl⟩ := List.mem_map.mp hy
      exact (hcorner c a).2

/-- Counterexample for C5 as stated: shape 4, blocksize 2, overlap 1,
block (1,1,1), identity chain, unit spacings.  The extended slice is
`[1:4)` so the fetched box starts at voxel 1; the canonical slice `[2:4)`
would start the box at voxel 2.  The fetched moving region is not the
canonical-corner box. -/
theorem C5_counterexample :
    (fetchedMovBox (fun _ => 4) (fun _ => 2) (fun _ => 1) (fun _ => 1)
      (fun p => p) (fun _ => 1) (fun _ => 1) (fun _ => 4)).1 0 = 1 ∧
    (canonicalMovBox (fun _ => 4) (fun _ => 2) (fun _ => 1)
      (fun p => p) (fun _ => 1) (fun _ => 1) (fun _ => 4)).1 0 = 2 ∧
    fetchedMovBox (fun _ => 4) (fun _ => 2) (fun _ => 1) (fun _ => 1)
      (fun p => p) (fun _ => 1) (fun _ => 1) (fun _ => 4) ≠
    canonicalMovBox (fun _ => 4) (fun _ => 2) (fun _ => 1)
      (fun p => p) (fun _ => 1) (fun _ => 1) (fun _ => 4) := by
  have h1 : (fetchedMovBox (fun _ => 4) (fun _ => 2) (fun _ => 1) (fun _ => 1)
      (fun p => p) (fun _ => 1) (fun _ => 1) (fun _ => 4)).1 0 = 1 := by
    simp only [fetchedMovBox, movBoxStart, movMappedCorner, blockCornerVoxel,
      cornerList, extendedStartAx, extendedStopAx, List.map_cons, List.map_nil,
      List.foldl_cons, List.foldl_nil, Matrix.cons_val_zero]
    norm_num [roundHalfEven]
  have h2 : (canonicalMovBox (fun _ => 4) (fun _ => 2) (fun _ => 1)
      (fun p => p) (fun _ => 1) (fun _ => 1) (fun _ => 4)).1 0 = 2 := by
    simp only [canonicalMovBox, movBoxStart, movMappedCorner, blockCornerVoxel,
      cornerList, canonicalStartAx, canonicalStopAx, List.map_cons, List.map_nil,
      List.foldl_cons, List.foldl_nil, Matrix.cons_val_zero]
    norm_num [roundHalfEven]
  refine ⟨h1, h2, fun h => ?_⟩
  have h3 := congrFun (congrArg Prod.fst h) 0
  rw [h1, h2] at h3
  exact absurd h3 (by decide)

/-- Witness for C5 at the same concrete block: the corner
`(false,false,false)` of the extended slice lies within the fetched box
on axis 0. -/
theorem C5_moving_region_witness :
    (![false, false, false]) ∈ cornerList ∧
    ((fetchedMovBox (fun _ => 4) (fun _ => 2) (fun _ => 1) (fun _ => 1)
        (fun p => p) (fun _ => 1) (fun _ => 1) (fun _ => 4)).1 0 ≤
      movMappedCorner (fun p => p) (fun _ => 1) (fun _ => 1) (fun _ => 4)
        (fun k => extendedStartAx ((fun _ => 2) k) ((fun _ => 1) k) ((fun _ => 1) k))
        (fun k => extendedStopAx ((fun _ => 4) k) ((fun _ => 2) k) ((fun _ => 1) k)
          ((fun _ => 1) k)) ![false, false, false] 0 ∧
     movMappedCorner (fun p => p) (fun _ => 1) (fun _ => 1) (fun _ => 4)
        (fun k => extendedStartAx ((fun _ => 2) k) ((fun _ => 1) k) ((fun _ => 1) k))
        (fun k => extendedStopAx ((fun _ => 4) k) ((fun _ => 2) k) ((fun _ => 1) k)
          ((fun _ => 1) k)) ![false, false, false] 0 ≤
      (fetchedMovBox (fun _ => 4) (fun _ => 2) (fun _ => 1) (fun _ => 1)
        (fun p => p) (fun _ => 1) (fun _ => 1) (fun _ => 4)).2 0) :=
  ⟨by decide,
    (C5_moving_region (fun _ => 4) (fun _ => 2) (fun _ => 1) (fun _ => 1)
      (fun p => p) (fun _ => 1) (fun _ => 1) (fun _ => 4)).1
      ![false, false, false] (by decide) 0⟩

/-- **C7** (code_bug).  `distributed_transform.distributed_apply_transform`
has no return statement: its body ends after the result-consumption loop,
so the caller always receives Python's `None` — and when
`aligned_data is None` the block results are discarded entirely, with
nothing accumulated.  This contradicts the claim (and the function's own
docstring, lines 80-85, which promises the resampled array). -/
theorem C7_no_sink_return (alignedData : Option ArrayD)
    (results : List BlockResult) :
    (distributedApplyTransformRun alignedData results).2 = none ∧
    (distributedApplyTransformRun none results).1 = none :=
  ⟨rfl, rfl⟩

/-- **C8** (corrected: no validation exists).  The orchestration prelude
normalizes `transform_spacing` (absent → the fixed spacing replicated;
single → replicated; tuple → passed through *unchanged and unchecked*,
per the source comment "assume it's length matches transform list
length") and never raises: there is no ConfigurationError and no
transform-shape check before (or after) block submission. -/
theorem C8_spacing_passthrough (fixSpacing sp : Fin 3 → ℚ)
    (l : List (Fin 3 → ℚ)) (n : ℕ) :
    transformSpacingList fixSpacing none n = .ok (List.replicate n fixSpacing) ∧
    transformSpacingList fixSpacing (some (.single sp)) n =
      .ok (List.replicate n sp) ∧
    transformSpacingList fixSpacing (some (.tupleOf l)) n = .ok l :=
  ⟨rfl, rfl, rfl⟩

/-- Counterexample for C8 as stated: a `transform_spacing` tuple of
length 1 with 2 transforms is accepted as-is (`.ok`, no error raised at
orchestration time), with a spacing list whose length mismatches the
transform list. -/
theorem C8_counterexample :
    transformSpacingList witSp (some (.tupleOf [witSp])) 2 = .ok [witSp] ∧
    [witSp].length ≠ 2 :=
  ⟨rfl, by decide⟩

/-- **C10** (confirmed).  The per-bucket coordinate transform writes the
mapped spatial columns and copies the payload columns: for every row the
payload part of the output equals the payload part of the input, row
count is preserved, and the spatial parts are exactly the mapped inputs. -/
theorem C10_payload_preserved (φ : (Fin 3 → ℚ) → Fin 3 → ℚ)
    (rows : List ((Fin 3 → ℚ) × List ℚ)) :
    (transformCoordsRows φ rows).map Prod.snd = rows.map Prod.snd ∧
    (transformCoordsRows φ rows).length = rows.length ∧
    (transformCoordsRows φ rows).map Prod.fst = (rows.map Prod.fst).map φ := by
  unfold transformCoordsRows
  have hlen : ((rows.map Prod.fst).map φ).length = (rows.map Prod.snd).length := by
    simp
  refine ⟨?_, ?_, ?_⟩
  · exact List.map_snd_zip _ _ (le_of_eq hlen.symm)
  · simp
  · exact List.map_fst_zip _ _ (le_of_eq hlen)

theorem ptsMin_le {d : ℕ} (pts : List (Fin d → ℚ)) (p : Fin d → ℚ)
    (hp : p ∈ pts) (a : Fin d) : ptsMin pts a ≤ p a := by
  cases pts with
  | nil => cases hp
  | cons q rest =>
    rcases List.mem_cons.mp hp with rfl | h2
    · exact foldl_min_le_init _ _
    · exact foldl_min_le_mem (List.mem_map_of_mem (fun r => r a) h2) _

theorem le_ptsMax {d : ℕ} (pts : List (Fin d → ℚ)) (p : Fin d → ℚ)
    (hp : p ∈ pts) (a : Fin d) : p a ≤ ptsMax pts a := by
  cases pts with
  | nil => cases hp
  | cons q rest =>
    rcases List.mem_cons.mp hp with rfl | h2
    · exact init_le_foldl_max _ _
    · exact mem_le_foldl_max (List.mem_map_of_mem (fun r => r a) h2) _

/-- **C9** (corrected: true of the extent-driven variant
(`piecewise_transform.transform_partition`) but false of the
grid-aligned variant (`distributed_transform._transform_coords`), which
crops to the fixed grid-cell slice, see `C9_counterexample`).  In
`transform_partition` each bucket carries its tight per-axis min/max
bounding box and the displacement field is cropped to
`[min(shape-1, floor(min/sp)), ceil(max/sp)+1)`, a range that covers the
voxel `floor(p/sp)` of every point `p` in the bucket. -/
theorem C9_bucket_bbox_crop (pts : List (Fin 3 → ℚ)) (sp : Fin 3 → ℚ)
    (S : Fin 3 → ℕ) (hsp : ∀ a, 0 < sp a) :
    ∀ p ∈ pts, ∀ a : Fin 3,
      partitionCropStart pts sp S a ≤ ⌊p a / sp a⌋ ∧
      ⌊p a / sp a⌋ < partitionCropStop pts sp a := by
  intro p hp a
  constructor
  · refine le_trans (min_le_right _ _) (Int.floor_le_floor ?_)
    exact (div_le_div_iff_of_pos_right (hsp a)).mpr (ptsMin_le pts p hp a)
  · have h1 : ⌊p a / sp a⌋ ≤ ⌈ptsMax pts a / sp a⌉ :=
      le_trans (Int.floor_le_ceil _)
        (Int.ceil_le_ceil ((div_le_div_iff_of_pos_right (hsp a)).mpr (le_ptsMax pts p hp a)))
    calc ⌊p a / sp a⌋ ≤ ⌈ptsMax pts a / sp a⌉ := h1
      _ < partitionCropStop pts sp a := by
          simp only [partitionCropStop]
          omega

/-- Counterexample for C9 as stated: bucket `{(5,5,5)}` inside grid cell
`[0:10)`, unit spacing, transform shape 20.  `_transform_coords` crops to
`[0:20)` (the grid cell, extended to the transform's end), not to the
tight bounding-box range `[5:6)`. -/
theorem C9_counterexample :
    gridCropSlice witCellStart witCellStop witFieldShape 0 = (0, 20) ∧
    (partitionCropStart [witPoint] witSp witFieldShape 0,
      partitionCropStop [witPoint] witSp 0) = (5, 6) ∧
    gridCropSlice witCellStart witCellStop witFieldShape 0 ≠
      (partitionCropStart [witPoint] witSp witFieldShape 0,
        partitionCropStop [witPoint] witSp 0) := by
  have h1 : gridCropSlice witCellStart witCellStop witFieldShape 0 = (0, 20) := by
    decide
  have h2 : (partitionCropStart [witPoint] witSp witFieldShape 0,
      partitionCropStop [witPoint] witSp 0) = ((5 : ℤ), (6 : ℤ)) := by
    norm_num [partitionCropStart, partitionCropStop, ptsMin, ptsMax,
      witPoint, witSp, witFieldShape]
  refine ⟨h1, h2, ?_⟩
  rw [h1, h2]
  decide

/-- Witness for C9: the bucket `{(5,5,5)}` with unit spacing and shape
20 — the tight crop `[5:6)` covers the point's voxel 5 on every axis. -/
theorem C9_bucket_bbox_crop_witness :
    (∀ a : Fin 3, 0 < witSp a) ∧ witPoint ∈ [witPoint] ∧
    (∀ a : Fin 3,
      partitionCropStart [witPoint] witSp witFieldShape a ≤ ⌊witPoint a / witSp a⌋ ∧
      ⌊witPoint a / witSp a⌋ < partitionCropStop [witPoint] witSp a) :=
  ⟨fun _ => by norm_num [witSp], List.mem_singleton.mpr rfl,
    C9_bucket_bbox_crop [witPoint] witSp witFieldShape
      (fun _ => by norm_num [witSp]) witPoint (List.mem_singleton.mpr rfl)⟩

/-! ## Helper lemmas for the coordinate partitioner -/

theorem mem_ndindexList : ∀ (d : ℕ) (n k : Fin d → ℕ),
    k ∈ ndindexList d n ↔ ∀ a, k a < n a := by
  intro d
  induction d with
  | zero =>
    intro n k
    simp only [ndindexList, List.mem_singleton]
    constructor
    · intro _ a
      exact a.elim0
    · intro _
      funext a
      exact a.elim0
  | succ d ih =>
    intro n k
    simp only [ndindexList, List.mem_flatMap, List.mem_range, List.mem_map]
    constructor
    · rintro ⟨j, hj, k2, hk2, rfl⟩
      intro a
      refine Fin.cases ?_ ?_ a
      · simpa using hj
      · intro b
        simpa using (ih _ k2).mp hk2 b
    · intro h
      exact ⟨k 0, h 0, Fin.tail k,
        (ih _ (Fin.tail k)).mpr fun b => h b.succ, Fin.cons_self_tail k⟩

theorem nodup_ndindexList : ∀ (d : ℕ) (n : Fin d → ℕ),
    (ndindexList d n).Nodup := by
  intro d
  induction d with
  | zero =>
    intro n
    simp [ndindexList]
  | succ d ih =>
    intro n
    refine List.nodup_flatMap.mpr ⟨?_, ?_⟩
    · intro j _
      refine (ih _).map ?_
      intro k1 k2 h
      funext b
      simpa using congrFun h b.succ
    · refine List.Pairwise.imp ?_ (List.pairwise_lt_range (n 0))
      intro j1 j2 hlt x hx1 hx2
      obtain ⟨k1, -, rfl⟩ := List.mem_map.mp hx1
      obtain ⟨k2, -, he⟩ := List.mem_map.mp hx2
      have h0 : j2 = j1 := by simpa using congrFun he 0
      omega

theorem inBucketB_iff {d : ℕ} (origin : Fin d → ℚ) (ps : ℚ) (hps : 0 < ps)
    (k : Fin d → ℕ) (p : Fin d → ℚ) :
    inBucketB origin ps k p = true ↔
      ∀ a, (k a : ℤ) = ⌊(p a - origin a) / ps⌋ := by
  rw [inBucketB, decide_eq_true_eq]
  refine forall_congr' fun a => ?_
  rw [eq_comm, Int.floor_eq_iff]
  rw [le_div_iff₀ hps, div_lt_iff₀ hps]
  push_cast
  constructor
  · rintro ⟨h1, h2⟩
    exact ⟨by linarith, by linarith⟩
  · rintro ⟨h1, h2⟩
    exact ⟨by linarith, by linarith⟩

theorem mem_bucketIdx {d : ℕ} (pts : List (Fin d → ℚ)) (ps : ℚ)
    (k : Fin d → ℕ) (j : ℕ) :
    j ∈ bucketIdx pts ps k ↔ j < pts.length ∧
      inBucketB (ptsMin pts) ps k (pts.getD j (fun _ => 0)) = true := by
  simp [bucketIdx, List.mem_filter]

theorem nodup_partitionIndices {d : ℕ} (pts : List (Fin d → ℚ)) (ps : ℚ)
    (hps : 0 < ps) : (partitionIndices pts ps).Nodup := by
  refine List.nodup_flatMap.mpr ⟨?_, ?_⟩
  · intro k _
    exact (List.nodup_range _).filter _
  · refine (nodup_ndindexList d _).pairwise_of_forall_ne ?_
    intro k1 _ k2 _ hne
    simp only [Function.onFun, List.Disjoint]
    intro j hj1 hj2
    have h1 := ((mem_bucketIdx pts ps k1 j).mp hj1).2
    have h2 := ((mem_bucketIdx pts ps k2 j).mp hj2).2
    rw [inBucketB_iff _ _ hps] at h1 h2
    refine hne (funext fun a => ?_)
    have := (h1 a).trans (h2 a).symm
    omega

theorem mem_partitionIndices {d : ℕ} (pts : List (Fin d → ℚ)) (ps : ℚ)
    (hps : 0 < ps)
    (H : ∀ p ∈ pts, ∀ a,
      ⌊(p a - ptsMin pts a) / ps⌋ < (nblocksCoord pts ps a : ℤ))
    (j : ℕ) : j ∈ partitionIndices pts ps ↔ j < pts.length := by
  constructor
  · intro h
    obtain ⟨k, -, hk⟩ := List.mem_flatMap.mp h
    exact ((mem_bucketIdx pts ps k j).mp hk).1
  · intro hj
    have hpmem : pts.getD j (fun _ => 0) ∈ pts := by
      rw [List.getD_eq_getElem pts _ hj]
      exact List.getElem_mem hj
    have hflo : ∀ a, 0 ≤ ⌊(pts.getD j (fun _ => 0) a - ptsMin pts a) / ps⌋ :=
      fun a => Int.floor_nonneg.mpr (div_nonneg
        (by linarith [ptsMin_le pts _ hpmem a]) hps.le)
    refine List.mem_flatMap.mpr
      ⟨fun a => (⌊(pts.getD j (fun _ => 0) a - ptsMin pts a) / ps⌋).toNat, ?_, ?_⟩
    · refine (mem_ndindexList d _ _).mpr fun a => ?_
      show (⌊(pts.getD j (fun _ => 0) a - ptsMin pts a) / ps⌋).toNat <
        nblocksCoord pts ps a
      have h1 := H _ hpmem a
      have h2 := hflo a
      omega
    · refine (mem_bucketIdx pts ps _ j).mpr
        ⟨hj, (inBucketB_iff _ _ hps _ _).mpr fun a => ?_⟩
      show (((⌊(pts.getD j (fun _ => 0) a - ptsMin pts a) / ps⌋).toNat : ℕ) : ℤ) =
        ⌊(pts.getD j (fun _ => 0) a - ptsMin pts a) / ps⌋
      rw [Int.toNat_of_nonneg (hflo a)]

theorem perm_partitionIndices {d : ℕ} (pts : List (Fin d → ℚ)) (ps : ℚ)
    (hps : 0 < ps)
    (H : ∀ p ∈ pts, ∀ a,
      ⌊(p a - ptsMin pts a) / ps⌋ < (nblocksCoord pts ps a : ℤ)) :
    (partitionIndices pts ps).Perm (List.range pts.length) := by
  refine (List.perm_ext_iff_of_nodup (nodup_partitionIndices pts ps hps)
    (List.nodup_range _)).mpr fun j => ?_
  rw [mem_partitionIndices pts ps hps H j, List.mem_range]

theorem inBucketGridB_iff (origin phys : Fin 3 → ℚ) (hphys : ∀ a, 0 < phys a)
    (k : Fin 3 → ℕ) (p : Fin 3 → ℚ) :
    inBucketGridB origin phys k p = true ↔
      ∀ a, (k a : ℤ) = ⌊(p a - origin a) / phys a⌋ := by
  rw [inBucketGridB, decide_eq_true_eq]
  refine forall_congr' fun a => ?_
  rw [eq_comm, Int.floor_eq_iff]
  rw [le_div_iff₀ (hphys a), div_lt_iff₀ (hphys a)]
  push_cast
  constructor
  · rintro ⟨h1, h2⟩
    exact ⟨by linarith, by linarith⟩
  · rintro ⟨h1, h2⟩
    exact ⟨by linarith, by linarith⟩

theorem mem_gridBucketIdx (pts : List (Fin 3 → ℚ)) (voxelBs : Fin 3 → ℕ)
    (sp : Fin 3 → ℚ) (k : Fin 3 → ℕ) (j : ℕ) :
    j ∈ gridBucketIdx pts voxelBs sp k ↔ j < pts.length ∧
      inBucketGridB (ptsMin pts) (physBlocksize voxelBs sp) k
        (pts.getD j (fun _ => 0)) = true := by
  simp [gridBucketIdx, List.mem_filter]

theorem nodup_gridIndices (pts : List (Fin 3 → ℚ)) (voxelBs : Fin 3 → ℕ)
    (sp : Fin 3 → ℚ) (hphys : ∀ a, 0 < physBlocksize voxelBs sp a) :
    (gridIndices pts voxelBs sp).Nodup := by
  refine List.nodup_flatMap.mpr ⟨?_, ?_⟩
  · intro k _
    exact (List.nodup_range _).filter _
  · refine (nodup_ndindexList 3 _).pairwise_of_forall_ne ?_
    intro k1 _ k2 _ hne
    simp only [Function.onFun, List.Disjoint]
    intro j hj1 hj2
    have h1 := ((mem_gridBucketIdx pts voxelBs sp k1 j).mp hj1).2
    have h2 := ((mem_gridBucketIdx pts voxelBs sp k2 j).mp hj2).2
    rw [inBucketGridB_iff _ _ hphys] at h1 h2
    refine hne (funext fun a => ?_)
    have := (h1 a).trans (h2 a).symm
    omega

theorem mem_gridIndices (pts : List (Fin 3 → ℚ)) (voxelBs : Fin 3 → ℕ)
    (sp : Fin 3 → ℚ) (hphys : ∀ a, 0 < physBlocksize voxelBs sp a) (j : ℕ) :
    j ∈ gridIndices pts voxelBs sp ↔ j < pts.length := by
  constructor
  · intro h
    obtain ⟨k, -, hk⟩ := List.mem_flatMap.mp h
    exact ((mem_gridBucketIdx pts voxelBs sp k j).mp hk).1
  · intro hj
    have hpmem : pts.getD j (fun _ => 0) ∈ pts := by
      rw [List.getD_eq_getElem pts _ hj]
      exact List.getElem_mem hj
    have hflo : ∀ a, 0 ≤ ⌊(pts.getD j (fun _ => 0) a - ptsMin pts a) /
        physBlocksize voxelBs sp a⌋ :=
      fun a => Int.floor_nonneg.mpr (div_nonneg
        (by linarith [ptsMin_le pts _ hpmem a]) (hphys a).le)
    have hup : ∀ a, ⌊(pts.getD j (fun _ => 0) a - ptsMin pts a) /
        physBlocksize voxelBs sp a⌋ < (nblocksGrid pts voxelBs sp a : ℤ) := by
      intro a
      have hle : ⌊(pts.getD j (fun _ => 0) a - ptsMin pts a) /
          physBlocksize voxelBs sp a⌋ ≤
          ⌈(ptsMax pts a - ptsMin pts a) / physBlocksize voxelBs sp a⌉ :=
        le_trans (Int.floor_le_floor
          ((div_le_div_iff_of_pos_right (hphys a)).mpr
            (by linarith [le_ptsMax pts _ hpmem a])))
          (Int.floor_le_ceil _)
      have hcnn : (0 : ℤ) ≤
          ⌈(ptsMax pts a - ptsMin pts a) / physBlocksize voxelBs sp a⌉ :=
        Int.ceil_nonneg (div_nonneg
          (by linarith [ptsMin_le pts _ hpmem a, le_ptsMax pts _ hpmem a])
          (hphys a).le)
      have hnb : (nblocksGrid pts voxelBs sp a : ℤ) =
          ⌈(ptsMax pts a - ptsMin pts a) / physBlocksize voxelBs sp a⌉ + 1 := by
        simp only [nblocksGrid]
        rw [Int.ceil_add_one, Int.toNat_of_nonneg (by omega)]
      omega
    refine List.mem_flatMap.mpr
      ⟨fun a => (⌊(pts.getD j (fun _ => 0) a - ptsMin pts a) /
        physBlocksize voxelBs sp a⌋).toNat, ?_, ?_⟩
    · refine (mem_ndindexList 3 _ _).mpr fun a => ?_
      show (⌊(pts.getD j (fun _ => 0) a - ptsMin pts a) /
        physBlocksize voxelBs sp a⌋).toNat < nblocksGrid pts voxelBs sp a
      have h1 := hup a
      have h2 := hflo a
      omega
    · refine (mem_gridBucketIdx pts voxelBs sp _ j).mpr
        ⟨hj, (inBucketGridB_iff _ _ hphys _ _).mpr fun a => ?_⟩
      show (((⌊(pts.getD j (fun _ => 0) a - ptsMin pts a) /
          physBlocksize voxelBs sp a⌋).toNat : ℕ) : ℤ) =
        ⌊(pts.getD j (fun _ => 0) a - ptsMin pts a) / physBlocksize voxelBs sp a⌋
      rw [Int.toNat_of_nonneg (hflo a)]

theorem perm_gridIndices (pts : List (Fin 3 → ℚ)) (voxelBs : Fin 3 → ℕ)
    (sp : Fin 3 → ℚ) (hphys : ∀ a, 0 < physBlocksize voxelBs sp a) :
    (gridIndices pts voxelBs sp).Perm (List.range pts.length) := by
  refine (List.perm_ext_iff_of_nodup (nodup_gridIndices pts voxelBs sp hphys)
    (List.nodup_range _)).mpr fun j => ?_
  rw [mem_gridIndices pts voxelBs sp hphys j, List.mem_range]

theorem gridGatherConcat_eq_map (pts : List (Fin 3 → ℚ)) (voxelBs : Fin 3 → ℕ)
    (sp : Fin 3 → ℚ) (f : (Fin 3 → ℚ) → Fin 3 → ℚ) :
    gridGatherConcat pts voxelBs sp f =
      (gridIndices pts voxelBs sp).map fun j => f (pts.getD j (fun _ => 0)) := by
  unfold gridGatherConcat gridIndices
  exact (List.map_flatMap _ _ _).symm

theorem map_getD_range (l : List α) (dflt : α) :
    (List.range l.length).map (fun j => l.getD j dflt) = l := by
  apply List.ext_getElem
  · simp
  · intro i h1 h2
    rw [List.getElem_map, List.getElem_range, List.getD_eq_getElem l dflt h2]

theorem scatterSet_cons (init : List (Option α)) (pr : ℕ × α)
    (rest : List (ℕ × α)) :
    scatterSet init (pr :: rest) = scatterSet (init.set pr.1 (some pr.2)) rest :=
  rfl

theorem scatterSet_length (pairs : List (ℕ × α)) :
    ∀ init : List (Option α), (scatterSet init pairs).length = init.length := by
  induction pairs with
  | nil => intro init; rfl
  | cons pr rest ih =>
    intro init
    rw [scatterSet_cons, ih, List.length_set]

theorem scatterSet_getElem_notMem (g : ℕ → α) (i : ℕ) :
    ∀ (idxs : List ℕ) (init : List (Option α)), i ∉ idxs →
      (scatterSet init (idxs.map fun j => (j, g j)))[i]? = init[i]? := by
  intro idxs
  induction idxs with
  | nil => intro init _; rfl
  | cons j rest ih =>
    intro init hni
    rw [List.map_cons, scatterSet_cons,
      ih _ (fun hh => hni (List.mem_cons_of_mem j hh))]
    refine List.getElem?_set_ne fun he => ?_
    subst he
    exact hni (List.mem_cons_self j rest)

theorem scatterSet_getElem (g : ℕ → α) (i : ℕ) :
    ∀ (idxs : List ℕ) (init : List (Option α)), idxs.Nodup → i < init.length →
      (scatterSet init (idxs.map fun j => (j, g j)))[i]? =
        if i ∈ idxs then some (some (g i)) else init[i]? := by
  intro idxs
  induction idxs with
  | nil =>
    intro init _ _
    simp [scatterSet]
  | cons j rest ih =>
    intro init hnd hi
    obtain ⟨hjr, hnd2⟩ := List.nodup_cons.mp hnd
    rw [List.map_cons, scatterSet_cons,
      ih (init.set j (some (g j))) hnd2 (by simpa using hi)]
    by_cases hir : i ∈ rest
    · simp [hir, List.mem_cons]
    · by_cases hij : i = j
      · subst hij
        simp [hir, List.mem_cons, List.getElem?_set_self hi]
      · simp [hir, hij, List.mem_cons, List.getElem?_set_ne (Ne.symm hij)]

theorem zip_self_map (l : List ℕ) (g : ℕ → α) :
    l.zip (l.map g) = l.map fun j => (j, g j) := by
  induction l with
  | nil => rfl
  | cons x xs ih => simp [ih]

theorem zip_flatMap_map {κ : Type} (ks : List κ) (F : κ → List ℕ) (g : ℕ → α) :
    (ks.flatMap F).zip (ks.flatMap fun k => (F k).map g) =
      (ks.flatMap F).map fun j => (j, g j) := by
  induction ks with
  | nil => rfl
  | cons k rest ih =>
    simp only [List.flatMap_cons]
    rw [List.zip_append (by simp), List.map_append, ih, zip_self_map]

theorem partitionPermuted_length {d : ℕ} (pts : List (Fin d → ℚ)) (ps : ℚ)
    (f : (Fin d → ℚ) → Fin d → ℚ) :
    (partitionPermuted pts ps f).length = (partitionIndices pts ps).length := by
  simp only [partitionPermuted, partitionIndices, List.length_flatMap]
  refine congrArg List.sum (List.map_congr_left fun k _ => ?_)
  simp

/-- **C6** (corrected; both cited variants fail the claim as stated, each
in its own way, see `C6_counterexample`).  Extent-driven variant
(`piecewise_transform`): for a nonempty point set (the code raises on an
empty one) with positive `partition_size`, *provided* no point sits
exactly on the partition grid's upper boundary (formally: every point's
cell index `floor((p - origin) / partition_size)` is below `nblocks` on
every axis — otherwise such points are dropped), the bucketing assigns
each input point to exactly one bucket (the concatenated index lists are
a permutation of `range N`), the gathered results have one entry per
input point, and scattering through the inverse of the
partition-assignment permutation restores the exact original input
order.  Grid-aligned variant (`distributed_transform`): with positive
voxel block size and spacing, its `+ 1` margin bucketing assigns *every*
point to exactly one bucket with no boundary drop (the implicit index
concatenation is a permutation of `range N`), but the function returns
the plain bucket-order concatenation of the gathered results — a
permutation of the transformed input, with no inverse-permutation
scatter, so the original input order is in general not restored. -/
theorem C6_partition_roundtrip {d : ℕ} (pts : List (Fin d → ℚ)) (ps : ℚ)
    (f : (Fin d → ℚ) → Fin d → ℚ) (pts2 : List (Fin 3 → ℚ))
    (voxelBs : Fin 3 → ℕ) (sp : Fin 3 → ℚ) (f2 : (Fin 3 → ℚ) → Fin 3 → ℚ)
    (_hne : pts ≠ []) (hps : 0 < ps)
    (H : ∀ p ∈ pts, ∀ a,
      ⌊(p a - ptsMin pts a) / ps⌋ < (nblocksCoord pts ps a : ℤ))
    (hvb : ∀ a, 0 < voxelBs a) (hspg : ∀ a, 0 < sp a) :
    ((partitionIndices pts ps).Perm (List.range pts.length) ∧
     (partitionResults pts ps f).length = pts.length ∧
     partitionResults pts ps f = pts.map fun p => some (f p)) ∧
    ((gridIndices pts2 voxelBs sp).Perm (List.range pts2.length) ∧
     (gridGatherConcat pts2 voxelBs sp f2).Perm (pts2.map f2)) := by
  have hphys : ∀ a, 0 < physBlocksize voxelBs sp a := by
    intro a
    exact mul_pos (by exact_mod_cast hvb a) (hspg a)
  have hgather : (gridGatherConcat pts2 voxelBs sp f2).Perm (pts2.map f2) := by
    rw [gridGatherConcat_eq_map]
    have h2 : (List.range pts2.length).map
        (fun j => f2 (pts2.getD j (fun _ => 0))) = pts2.map f2 := by
      have h3 := map_getD_range pts2 (fun _ => 0)
      calc (List.range pts2.length).map (fun j => f2 (pts2.getD j (fun _ => 0)))
          = ((List.range pts2.length).map (fun j => pts2.getD j (fun _ => 0))).map f2 := by
            rw [List.map_map]
            rfl
        _ = pts2.map f2 := by rw [h3]
    have h4 := (perm_gridIndices pts2 voxelBs sp hphys).map
      (fun j => f2 (pts2.getD j (fun _ => 0)))
    rwa [h2] at h4
  refine ⟨?_, perm_gridIndices pts2 voxelBs sp hphys, hgather⟩
  have hperm := perm_partitionIndices pts ps hps H
  have hlen : (partitionIndices pts ps).length = pts.length := by
    simpa using hperm.length_eq
  have hplen : (partitionPermuted pts ps f).length = pts.length := by
    rw [partitionPermuted_length]
    exact hlen
  have hzip : (partitionIndices pts ps).zip (partitionPermuted pts ps f) =
      (partitionIndices pts ps).map fun j => (j, f (pts.getD j (fun _ => 0))) := by
    unfold partitionIndices partitionPermuted
    exact zip_flatMap_map _ _ _
  have hreslen : (partitionResults pts ps f).length = pts.length := by
    rw [partitionResults, scatterSet_length, List.length_replicate]
    exact hplen
  refine ⟨hperm, hreslen, ?_⟩
  apply List.ext_getElem?
  intro i
  by_cases hi : i < pts.length
  · rw [partitionResults, hzip, scatterSet_getElem _ i _ _
      (nodup_partitionIndices pts ps hps)
      (by rw [List.length_replicate]; omega),
      if_pos ((mem_partitionIndices pts ps hps H i).mpr hi)]
    rw [List.getElem?_map, List.getElem?_eq_getElem hi,
      List.getD_eq_getElem pts _ hi]
    rfl
  · have h1 : (partitionResults pts ps f)[i]? = none :=
      List.getElem?_eq_none (by omega)
    have h2 : (pts.map fun p => some (f p))[i]? = none :=
      List.getElem?_eq_none (by rw [List.length_map]; omega)
    rw [partitionResults, hzip] at h1 ⊢
    rw [h1, h2]

/-- Counterexample for C6 as stated — both cited variants fail.
Extent-driven variant: points `{0, 30}` in one dimension with
`partition_size = 30`; the extent is exactly `30`, so `nblocks =
ceil(30/30) = 1` and the only bucket is `[0, 30)`: the point `30` (the
maximum, sitting on the bucket's excluded upper boundary) is assigned to
*no* bucket and is dropped; the merged output is not the transformed
input (its index 1 is never written).  Grid-aligned variant: points
`(10,0,0), (0,0,0)` with voxel block size 10 and unit spacing; both
points are bucketed (the `+ 1` margin keeps the boundary point), but the
returned concatenation is in bucket order `[(0,0,0), (10,0,0)]` — the
reverse of the input order, because no inverse-permutation scatter
exists in that function. -/
theorem C6_counterexample :
    ((1 : ℕ) ∉ partitionIndices [witCoordA, witCoordC] (30 : ℚ) ∧
     partitionResults [witCoordA, witCoordC] (30 : ℚ) (fun p => p) ≠
       [witCoordA, witCoordC].map fun p => some p) ∧
    (gridGatherConcat [witGridP0, witGridP1] (fun _ => 10) (fun _ => 1)
       (fun p => p) = [witGridP1, witGridP0] ∧
     gridGatherConcat [witGridP0, witGridP1] (fun _ => 10) (fun _ => 1)
       (fun p => p) ≠ [witGridP0, witGridP1].map fun p => p) := by
  have hmin : ∀ a : Fin 1, ptsMin [witCoordA, witCoordC] a = 0 := by
    intro a
    simp only [ptsMin, List.map_cons, List.map_nil, List.foldl_cons,
      List.foldl_nil, witCoordA, witCoordC]
    exact min_eq_left (by norm_num)
  have hnb : ∀ a : Fin 1, nblocksCoord [witCoordA, witCoordC] (30 : ℚ) a = 1 := by
    intro a
    simp only [nblocksCoord, ptsMax, ptsMin, List.map_cons, List.map_nil,
      List.foldl_cons, List.foldl_nil, witCoordA, witCoordC]
    rw [max_eq_right (by norm_num : (0 : ℚ) ≤ 30)]
    norm_num
  have hnotmem : (1 : ℕ) ∉ partitionIndices [witCoordA, witCoordC] (30 : ℚ) := by
    intro hmem
    obtain ⟨k, hkmem, hk⟩ := List.mem_flatMap.mp hmem
    have hk0 : k 0 < 1 := by
      have h := (mem_ndindexList _ _ _).mp hkmem 0
      rwa [hnb 0] at h
    have hb := ((mem_bucketIdx _ _ _ _).mp hk).2
    rw [inBucketB_iff _ _ (by norm_num)] at hb
    have hb0 := hb 0
    have hgd : ([witCoordA, witCoordC].getD 1 (fun _ => 0)) = witCoordC := rfl
    rw [hgd, hmin 0] at hb0
    have hone : (k 0 : ℤ) = 1 := by
      rw [hb0]
      norm_num [witCoordC]
    omega
  have hdropped : partitionResults [witCoordA, witCoordC] (30 : ℚ) (fun p => p) ≠
      [witCoordA, witCoordC].map fun p => some p := by
    intro h
    have hz : (partitionIndices [witCoordA, witCoordC] (30 : ℚ)).zip
        (partitionPermuted [witCoordA, witCoordC] (30 : ℚ) (fun p => p)) =
        (partitionIndices [witCoordA, witCoordC] (30 : ℚ)).map
          fun j => (j, (fun p => p) ([witCoordA, witCoordC].getD j (fun _ => 0))) := by
      unfold partitionIndices partitionPermuted
      exact zip_flatMap_map _ _ _
    have h1 : (partitionResults [witCoordA, witCoordC] (30 : ℚ) fun p => p)[1]? =
        ([witCoordA, witCoordC].map fun p => some p)[1]? := by rw [h]
    rw [partitionResults, hz, scatterSet_getElem_notMem _ _ _ _ hnotmem] at h1
    have h2 : ([witCoordA, witCoordC].map fun p => some p)[1]? =
        some (some witCoordC) := rfl
    rw [h2, List.getElem?_replicate] at h1
    by_cases hM :
        1 < (partitionPermuted [witCoordA, witCoordC] (30 : ℚ) fun p => p).length
    · rw [if_pos hM] at h1
      injection h1 with h4
      exact Option.noConfusion h4
    · rw [if_neg hM] at h1
      exact Option.noConfusion h1
  have hkeysg : ndindexList 3 ![2, 1, 1] = [![0, 0, 0], ![1, 0, 0]] := by decide
  have hnbg : nblocksGrid [witGridP0, witGridP1] (fun _ => 10) (fun _ => 1) =
      ![2, 1, 1] := by
    funext a
    fin_cases a <;>
      simp [nblocksGrid, physBlocksize, ptsMax, ptsMin, witGridP0, witGridP1]
  have hbg0 : gridBucketIdx [witGridP0, witGridP1] (fun _ => 10) (fun _ => 1)
      ![0, 0, 0] = [1] := by
    have e0 : inBucketGridB (ptsMin [witGridP0, witGridP1])
        (physBlocksize (fun _ => 10) (fun _ => 1)) ![0, 0, 0] witGridP0 = false := by
      simp only [inBucketGridB, decide_eq_false_iff_not]
      intro h
      have := (h 0).2
      simp [ptsMin, physBlocksize, witGridP0, witGridP1] at this
    have e1 : inBucketGridB (ptsMin [witGridP0, witGridP1])
        (physBlocksize (fun _ => 10) (fun _ => 1)) ![0, 0, 0] witGridP1 = true := by
      simp only [inBucketGridB, decide_eq_true_eq]
      intro a
      fin_cases a <;> simp [ptsMin, physBlocksize, witGridP0, witGridP1]
    simp [gridBucketIdx, List.range_succ, List.filter_cons, e0, e1]
  have hbg1 : gridBucketIdx [witGridP0, witGridP1] (fun _ => 10) (fun _ => 1)
      ![1, 0, 0] = [0] := by
    have e0 : inBucketGridB (ptsMin [witGridP0, witGridP1])
        (physBlocksize (fun _ => 10) (fun _ => 1)) ![1, 0, 0] witGridP0 = true := by
      simp only [inBucketGridB, decide_eq_true_eq]
      intro a
      fin_cases a <;> simp [ptsMin, physBlocksize, witGridP0, witGridP1]
    have e1 : inBucketGridB (ptsMin [witGridP0, witGridP1])
        (physBlocksize (fun _ => 10) (fun _ => 1)) ![1, 0, 0] witGridP1 = false := by
      simp only [inBucketGridB, decide_eq_false_iff_not]
      intro h
      have := (h 0).1
      norm_num [ptsMin, physBlocksize, witGridP0, witGridP1] at this
    simp [gridBucketIdx, List.range_succ, List.filter_cons, e0, e1]
  have hEval : gridGatherConcat [witGridP0, witGridP1] (fun _ => 10) (fun _ => 1)
      (fun p => p) = [witGridP1, witGridP0] := by
    rw [gridGatherConcat, hnbg, hkeysg]
    simp [hbg0, hbg1]
  refine ⟨⟨hnotmem, hdropped⟩, hEval, fun h => ?_⟩
  rw [hEval, show ([witGridP0, witGridP1].map fun p => p) = [witGridP0, witGridP1]
    from by simp] at h
  injection h with h5 h6
  have h7 := congrFun h5 0
  norm_num [witGridP0, witGridP1] at h7

/-- Witness for C6: points `{0, 10}` in one dimension with
`partition_size = 30` for the extent-driven variant (extent 10 is not a
multiple of 30, so no point is on the grid's upper boundary), and points
`(10,0,0), (0,0,0)` with voxel block size 10 and unit spacing for the
grid-aligned variant. -/
theorem C6_partition_roundtrip_witness :
    ([witCoordA, witCoordB] ≠ ([] : List (Fin 1 → ℚ))) ∧ ((0 : ℚ) < 30) ∧
    (∀ p ∈ [witCoordA, witCoordB], ∀ a : Fin 1,
      ⌊(p a - ptsMin [witCoordA, witCoordB] a) / (30 : ℚ)⌋ <
        (nblocksCoord [witCoordA, witCoordB] (30 : ℚ) a : ℤ)) ∧
    (∀ a : Fin 3, 0 < ((fun _ => 10) : Fin 3 → ℕ) a) ∧
    (∀ a : Fin 3, 0 < ((fun _ => 1) : Fin 3 → ℚ) a) ∧
    (((partitionIndices [witCoordA, witCoordB] (30 : ℚ)).Perm
        (List.range ([witCoordA, witCoordB] : List (Fin 1 → ℚ)).length) ∧
      (partitionResults [witCoordA, witCoordB] (30 : ℚ) (fun p => p)).length =
        ([witCoordA, witCoordB] : List (Fin 1 → ℚ)).length ∧
      partitionResults [witCoordA, witCoordB] (30 : ℚ) (fun p => p) =
        [witCoordA, witCoordB].map fun p => some ((fun p => p) p)) ∧
     ((gridIndices [witGridP0, witGridP1] (fun _ => 10) (fun _ => 1)).Perm
        (List.range ([witGridP0, witGridP1] : List (Fin 3 → ℚ)).length) ∧
      (gridGatherConcat [witGridP0, witGridP1] (fun _ => 10) (fun _ => 1)
        (fun p => p)).Perm ([witGridP0, witGridP1].map fun p => p))) := by
  have hne : [witCoordA, witCoordB] ≠ ([] : List (Fin 1 → ℚ)) :=
    List.cons_ne_nil _ _
  have hps : (0 : ℚ) < 30 := by norm_num
  have hH : ∀ p ∈ [witCoordA, witCoordB], ∀ a : Fin 1,
      ⌊(p a - ptsMin [witCoordA, witCoordB] a) / (30 : ℚ)⌋ <
        (nblocksCoord [witCoordA, witCoordB] (30 : ℚ) a : ℤ) := by
    have hmin : ∀ a : Fin 1, ptsMin [witCoordA, witCoordB] a = 0 := by
      intro a
      simp only [ptsMin, List.map_cons, List.map_nil, List.foldl_cons,
        List.foldl_nil, witCoordA, witCoordB]
      exact min_eq_left (by norm_num)
    have hnb : ∀ a : Fin 1, nblocksCoord [witCoordA, witCoordB] (30 : ℚ) a = 1 := by
      intro a
      simp only [nblocksCoord, ptsMax, ptsMin, List.map_cons, List.map_nil,
        List.foldl_cons, List.foldl_nil, witCoordA, witCoordB]
      rw [max_eq_right (by norm_num : (0 : ℚ) ≤ 10),
        min_eq_left (by norm_num : (0 : ℚ) ≤ 10),
        show (⌈((10 : ℚ) - 0) / 30⌉) = 1 from Int.ceil_eq_iff.mpr (by norm_num)]
      rfl
    intro p hp a
    rw [hmin a, hnb a]
    rcases List.mem_cons.mp hp with rfl | hp2
    · norm_num [witCoordA]
    · rcases List.mem_cons.mp hp2 with rfl | hp3
      · norm_num [witCoordB]
      · simp at hp3
  have hvb : ∀ a : Fin 3, 0 < ((fun _ => 10) : Fin 3 → ℕ) a := fun _ => by norm_num
  have hspg : ∀ a : Fin 3, 0 < ((fun _ => 1) : Fin 3 → ℚ) a := fun _ => by norm_num
  exact ⟨hne, hps, hH, hvb, hspg,
    C6_partition_roundtrip [witCoordA, witCoordB] 30 (fun p => p)
      [witGridP0, witGridP1] (fun _ => 10) (fun _ => 1) (fun p => p)
      hne hps hH hvb hspg⟩

end Bigstream
